import Mathlib

/-!
Verification development for the `lambrecht` weather-station driver.

The repository polls a Lambrecht meteo station over a serial line
(`lambrecht/lambrecht.py`), decodes its newline-terminated NMEA-style
sentences into `Report`s, and forwards completed reports to an InfluxDB
sink through an unbounded queue with retry (`lambrecht/influx.py`).

This file shallowly embeds the relevant code:
  * bytes are modelled as `List Char` (the protocol is ASCII, so Python's
    `bytes.decode` is the identity on the byte values);
  * Python `float` values parsed from sensor fields are modelled as `ℚ`
    (all literals appearing in the development are exactly representable);
  * the dictionary `Report.values`, whose only keys written by the driver
    are the six sensor fields, is modelled as the structure `Values` of six
    optional rationals (absent key = `none`);
  * `datetime.datetime.utcnow()` timestamps are modelled by threading an
    explicit time value with each processed message;
  * exceptions (`ValueError` from `float`, `IndexError` from `s[i]`) are
    modelled by a `raised` flag, with the partial in-place mutations that
    happened before the raise preserved, exactly as Python leaves them.
-/

namespace Lambrecht

/-- Python whitespace characters stripped by `float(str)`. -/
def isPyWs (c : Char) : Bool :=
  c = ' ' || c = '\n' || c = '\t' || c = '\r' || c = '\x0b' || c = '\x0c'

/-- Strip leading and trailing whitespace, as Python `float(str)` does
before parsing. -/
def stripWs (l : List Char) : List Char :=
  ((l.dropWhile isPyWs).reverse.dropWhile isPyWs).reverse

/-- Numeric value of a digit string (most significant first). -/
def natVal (l : List Char) : ℚ :=
  l.foldl (fun acc c => acc * 10 + (c.toNat - 48 : ℕ)) 0

/-- Parse an unsigned decimal literal: digits, optionally followed by a
point and further digits, with at least one digit present.  This is the
fragment of Python `float(str)` grammar exercised by the sensor protocol
(no exponents, no `inf`/`nan`, no underscores); on every other input the
model fails just as `float` raises `ValueError`. -/
def parseUnsigned (l : List Char) : Option ℚ :=
  let ip := l.takeWhile Char.isDigit
  let rest := l.dropWhile Char.isDigit
  match rest with
  | [] => if ip = [] then none else some (natVal ip)
  | '.' :: fp =>
      if fp.all Char.isDigit && (ip ≠ [] || fp ≠ []) then
        some (natVal ip + natVal fp / (10 : ℚ) ^ fp.length)
      else none
  | _ => none

/-- Model of Python `float(str)` on the decimal literals used by the
protocol: strip whitespace, optional sign, unsigned decimal literal.
Returns `none` where `float` raises `ValueError`. -/
def pyFloat (l : List Char) : Option ℚ :=
  match stripWs l with
  | '+' :: r => parseUnsigned r
  | '-' :: r => (parseUnsigned r).map Neg.neg
  | r => parseUnsigned r

/-- Python `str.split(",")`: split at every comma, keeping empty pieces;
the result is always nonempty. -/
def splitComma : List Char → List (List Char)
  | [] => [[]]
  | c :: rest =>
      if c = ',' then [] :: splitComma rest
      else
        match splitComma rest with
        | [] => [[c]]
        | h :: t => (c :: h) :: t

/-- The `values` dictionary of a `Report`: the six sensor fields the driver
ever writes (`temp`, `winddir`, `windspeed`, `humid`, `dewpoint`,
`press`), each absent (`none`) until a sentence sets it. -/
structure Values where
  temp : Option ℚ
  winddir : Option ℚ
  windspeed : Option ℚ
  humid : Option ℚ
  dewpoint : Option ℚ
  press : Option ℚ
deriving DecidableEq, Repr

/-- The empty dictionary of a freshly constructed `Report()`. -/
def emptyValues : Values := ⟨none, none, none, none, none, none⟩

/-- Names of the six sensor fields. -/
inductive Field
  | temp | winddir | windspeed | humid | dewpoint | press
deriving DecidableEq, Repr

/-- All six required fields, in the order `Report.finished` checks them. -/
def allFields : List Field :=
  [.temp, .winddir, .windspeed, .humid, .dewpoint, .press]

/-- Look a field up in the values dictionary. -/
def getF : Field → Values → Option ℚ
  | .temp, v => v.temp
  | .winddir, v => v.winddir
  | .windspeed, v => v.windspeed
  | .humid, v => v.humid
  | .dewpoint, v => v.dewpoint
  | .press, v => v.press

/-- Embeds `Report.finished`: true when every one of the six required keys
is present in `values`. -/
def finishedV (v : Values) : Bool :=
  v.temp.isSome && v.winddir.isSome && v.windspeed.isSome &&
    v.humid.isSome && v.dewpoint.isSome && v.press.isSome

/-- One pass of the `while b"\n" in raw` loop of
`Lambrecht._extract_messages`, with fuel bounding the number of
iterations (each iteration removes at least one byte, so `raw.length`
fuel always suffices — see `extractFuel_eq_of_le`). -/
def extractFuel : ℕ → List Char → List (List Char) × List Char
  | 0, raw => ([], raw)
  | n + 1, raw =>
      if '\n' ∈ raw then
        let pos := raw.indexOf '\n'
        let msg := raw.take (pos + 1)
        let rest := raw.drop (pos + 1)
        let (msgs, rem) := extractFuel n rest
        (msg :: msgs, rem)
      else ([], raw)

/-- Embeds `Lambrecht._extract_messages`: repeatedly split off the prefix
up to and including the first `\n`, returning the complete messages and
the unconsumed remainder.  (The Python guard `if not raw: return [], b""`
coincides with the loop falling through on empty input.) -/
def extractMessages (raw : List Char) : List (List Char) × List Char :=
  extractFuel raw.length raw

/-- Feeding chunks successively through `_extract_messages`, threading the
returned remainder into the next call as the poll loop does
(`self._raw_data += self._conn.read()`), accumulating all messages. -/
def feedChunks (rem : List Char) : List (List Char) → List (List Char) × List Char
  | [] => ([], rem)
  | c :: cs =>
      let (ms, r) := extractMessages (rem ++ c)
      let (ms2, rf) := feedChunks r cs
      (ms ++ ms2, rf)

/-- Models `float(s[i])` inside `_analyse_message`: `none` when Python
raises (`IndexError` when the field is missing, `ValueError` when it does
not parse). -/
def fieldFloat (s : List (List Char)) (i : ℕ) : Option ℚ :=
  (s.get? i).bind pyFloat

/-- Result of one `_analyse_message` call: the report values after the
call (in-place mutations persist even when an exception is raised), the
emitted report when the completion check fired, and whether the call
raised. -/
structure AnalyseResult where
  values : Values
  emitted : Option Values
  raised : Bool
deriving DecidableEq, Repr

/-- The `if self._report.finished()` epilogue of `_analyse_message`:
emit the completed report and start a fresh empty one. -/
def finCheck (v : Values) : AnalyseResult :=
  if finishedV v then ⟨emptyValues, some v, false⟩ else ⟨v, none, false⟩

/-- Embeds the body of `Lambrecht._analyse_message` applied to the byte
string it examines (in the code as written that is `self._raw_data`; its
docstring and call site intend the `raw_data` argument): skip empty or
bare-newline data, split the decoded line at commas, dispatch on the
leading token, parse the positional fields, then run the completion
check.  Assignments are performed left to right, so a raise from a later
`float` leaves the earlier assignment of the same sentence in place. -/
def analyseData (rv : Values) (data : List Char) : AnalyseResult :=
  if data.length = 0 || data = ['\n'] then ⟨rv, none, false⟩
  else
    let s := splitComma data
    if s.headD [] = "$WIMTA".toList then
      match fieldFloat s 1 with
      | none => ⟨rv, none, true⟩
      | some x => finCheck {rv with temp := some x}
    else if s.headD [] = "$WIMWV".toList then
      match fieldFloat s 1 with
      | none => ⟨rv, none, true⟩
      | some x =>
          match fieldFloat s 3 with
          | none => ⟨{rv with winddir := some x}, none, true⟩
          | some y => finCheck {rv with winddir := some x, windspeed := some y}
    else if s.headD [] = "$WIMHU".toList then
      match fieldFloat s 1 with
      | none => ⟨rv, none, true⟩
      | some x =>
          match fieldFloat s 3 with
          | none => ⟨{rv with humid := some x}, none, true⟩
          | some y => finCheck {rv with humid := some x, dewpoint := some y}
    else if s.headD [] = "$WIMMB".toList then
      match fieldFloat s 3 with
      | none => ⟨rv, none, true⟩
      | some x => finCheck {rv with press := some x}
    else finCheck rv

/-- The fields a sentence names: which keys `_analyse_message` would
assign for this data when no exception interrupts it. -/
def fieldsOf (data : List Char) : List Field :=
  if data.length = 0 || data = ['\n'] then []
  else
    let s := splitComma data
    if s.headD [] = "$WIMTA".toList then [.temp]
    else if s.headD [] = "$WIMWV".toList then [.winddir, .windspeed]
    else if s.headD [] = "$WIMHU".toList then [.humid, .dewpoint]
    else if s.headD [] = "$WIMMB".toList then [.press]
    else []

/-- Run a list of timed messages through `_analyse_message` as the
docstring and the `for msg in msgs` loop of `_read_data` intend (each
message analysed itself).  Each message carries the wall-clock instant at
which it is processed; an emission records that instant, modelling
`self._report.time = datetime.datetime.utcnow()` at completion.  A raise
aborts the loop, as the uncaught exception aborts `_read_data`. -/
def runMsgsT (rv : Values) : List (List Char × ℚ) → Values × List (ℚ × Values) × Bool
  | [] => (rv, [], false)
  | (m, t) :: rest =>
      let r := analyseData rv m
      if r.raised then (r.values, [], true)
      else
        let (rv2, es, rz) := runMsgsT r.values rest
        (rv2, (r.emitted.map fun e => (t, e)).toList ++ es, rz)

/-- The `for msg in msgs` loop of `_read_data` as the code actually
behaves: `_analyse_message` ignores its argument and reads
`self._raw_data`, which during the loop holds the post-extraction
remainder, so each of the `msgs.length` iterations analyses that same
remainder. -/
def loopAnalyse (rv : Values) (rem : List Char) : ℕ → Values × List Values × Bool
  | 0 => (rv, [], false)
  | n + 1 =>
      let r := analyseData rv rem
      if r.raised then (r.values, [], true)
      else
        let (rv2, es, rz) := loopAnalyse r.values rem n
        (rv2, r.emitted.toList ++ es, rz)

/-- Result of one `_read_data` call: report values, reports emitted to the
callback, the new `self._raw_data` buffer, and whether an exception
escaped (caught by `_poll`'s bare `except`). -/
structure ReadResult where
  values : Values
  emitted : List Values
  buffer : List Char
  raised : Bool
deriving DecidableEq, Repr

/-- Embeds `Lambrecht._read_data` as written: append the incoming bytes to
the buffer, extract complete messages, then run the analyse loop — which,
because `_analyse_message` reads `self._raw_data`, analyses the
post-extraction remainder once per extracted message. -/
def readDataActual (rv : Values) (buf incoming : List Char) : ReadResult :=
  let (msgs, rem) := extractMessages (buf ++ incoming)
  let (rv2, es, rz) := loopAnalyse rv rem msgs.length
  ⟨rv2, es, rem, rz⟩

/-- Embeds `Lambrecht._read_data` as its docstrings intend (the same code
with `_analyse_message` analysing the message passed to it); all messages
of the batch are processed at instant `t`. -/
def readDataIntended (rv : Values) (buf incoming : List Char) (t : ℚ) : ReadResult :=
  let (msgs, rem) := extractMessages (buf ++ incoming)
  let (rv2, es, rz) := runMsgsT rv (msgs.map fun m => (m, t))
  ⟨rv2, es.map Prod.snd, rem, rz⟩

/-- The byte sequence of the specification's end-to-end scenario. -/
def c1Bytes : List Char :=
  "$WIMTA,12.5\n$WIMWV,180,,3.2\n$WIMHU,55,,9.1\n$WIMMB,,,1013.2\n".toList

/-- The `_thread_sleep` initial sleep interval. -/
def threadSleep : ℕ := 1

/-- The `_max_thread_sleep` ceiling. -/
def maxThreadSleep : ℕ := 900

/-- Backoff state carried across `_poll` calls. -/
structure PollState where
  serialErrors : ℕ
  sleepTime : ℕ
deriving DecidableEq, Repr

/-- State after `__init__` / `_poll_thread` start: no errors, initial
sleep. -/
def pollInit : PollState := ⟨0, threadSleep⟩

/-- Embeds the `except serial.SerialException` branch of `_poll`: the
error counter increments, and on every 10th consecutive error the sleep
time doubles while below the ceiling, else resets to `_thread_sleep`. -/
def pollConnectFail (s : PollState) : PollState :=
  let e := s.serialErrors + 1
  ⟨e, if e % 10 = 0 then
        (if s.sleepTime < maxThreadSleep then s.sleepTime * 2 else threadSleep)
      else s.sleepTime⟩

/-- Embeds the success path of `_poll`'s connect: both the error counter
and the sleep time are reset. -/
def pollConnectSucc (_ : PollState) : PollState := ⟨0, threadSleep⟩

/-- Constructor arguments of `Influx.__init__`. -/
structure InfluxCfg where
  url : Option String
  token : Option String
  org : Option String
  bucket : Option String
deriving DecidableEq, Repr

/-- Whether `__init__` created a client: all four credentials present. -/
def clientConfigured (c : InfluxCfg) : Bool :=
  c.url.isSome && c.token.isSome && c.org.isSome && c.bucket.isSome

/-- Embeds `Influx.__call__`: enqueue at the tail when a client is
configured, otherwise do nothing. -/
def influxCall (c : InfluxCfg) (q : List (ℕ × Values)) (e : ℕ × Values) :
    List (ℕ × Values) :=
  if clientConfigured c then q ++ [e] else q

/-- Embeds the windspeed m/s → km/h conversion of `_send_measurements`:
`if "windspeed" in report.values: report.values["windspeed"] *= 3.6`. -/
def convertWind (v : Values) : Values :=
  match v.windspeed with
  | some w => { v with windspeed := some (w * (18 / 5)) }
  | none => v

/-- Delivery loop of `_send_measurements`, driven by a schedule of write
outcomes (`true` = the `write_api.write` call succeeds, `false` = it
raises a transient connection error): dequeue the head entry, convert the
copy's windspeed, and on success deliver it, on failure `put` it back —
at the tail, since `queue.Queue.put` appends.  Returns the successful
writes in order; the run stops when the queue empties or the schedule is
exhausted. -/
def sendRun : List Bool → List (ℕ × Values) → List (ℕ × Values)
  | _, [] => []
  | [], _ :: _ => []
  | ok :: sched, (i, v) :: q =>
      let c := convertWind v
      if ok then (i, c) :: sendRun sched q
      else sendRun sched (q ++ [(i, c)])

/-- Program points of the `_send_measurements` worker thread. -/
inductive WPc
  | clientCheck | loopCheck | atGet | exited
deriving DecidableEq, Repr

/-- State of the worker thread together with the shared queue and the
`_closing` event. -/
structure WorkerSt where
  queue : List (ℕ × Values)
  closing : Bool
  pc : WPc
deriving DecidableEq, Repr

/-- Small-step transition of the `_send_measurements` worker.  `ok` is the
outcome of the pending `write` call; the returned event is a successful
write.  `none` means no step is possible: the worker is blocked —
`queue.get()` on an empty queue waits forever (it has no timeout and does
not observe `_closing`) — or has exited. -/
def workerStep (cfg : InfluxCfg) (ok : Bool) (s : WorkerSt) :
    Option (WorkerSt × Option (ℕ × Values)) :=
  match s.pc with
  | .clientCheck =>
      if clientConfigured cfg then some ({ s with pc := .loopCheck }, none)
      else some ({ s with pc := .exited }, none)
  | .loopCheck =>
      if s.closing then some ({ s with pc := .exited }, none)
      else some ({ s with pc := .atGet }, none)
  | .atGet =>
      match s.queue with
      | [] => none
      | (i, v) :: rest =>
          let c := convertWind v
          if ok then some ({ s with queue := rest, pc := .loopCheck }, some (i, c))
          else some ({ s with queue := rest ++ [(i, c)], pc := .loopCheck }, none)
  | .exited => none

/-- Embeds `Influx.stop`'s `self._closing.set()`. -/
def setClosing (s : WorkerSt) : WorkerSt := { s with closing := true }

/-- Run the worker for a list of write outcomes, staying put when
blocked. -/
def workerIter (cfg : InfluxCfg) : List Bool → WorkerSt → WorkerSt
  | [], s => s
  | ok :: oks, s =>
      match workerStep cfg ok s with
      | none => s
      | some (s', _) => workerIter cfg oks s'

/-- Successful writes of a worker run. -/
def workerTrace (cfg : InfluxCfg) : List Bool → WorkerSt → List (ℕ × Values)
  | [], _ => []
  | ok :: oks, s =>
      match workerStep cfg ok s with
      | none => []
      | some (s', ev) => ev.toList ++ workerTrace cfg oks s'

/-- A fully configured `Influx` (all four credentials present). -/
def cfgAll : InfluxCfg := ⟨some "u", some "t", some "o", some "b"⟩

/-- A complete report with windspeed 3.2 m/s, as assembled from the
specification's scenario. -/
def wsReport : Values :=
  ⟨some (25/2), some 180, some (16/5), some 55, some (91/10), some (5066/5)⟩

/-- A Python `Report` object: a reference to its `values` dictionary in
the store, and its `time`. -/
structure PyReport where
  valuesRef : ℕ
  time : ℚ
deriving DecidableEq, Repr

/-- Embeds `Report.copy`: `Report(self.values, self.time)` constructs a
new `Report` holding the same `values` reference (no new dictionary is
allocated). -/
def reportCopy (r : PyReport) : PyReport := ⟨r.valuesRef, r.time⟩

/-- Dereference a report's `values` dictionary in the store. -/
def getValues (store : List Values) (r : PyReport) : Values :=
  store.getD r.valuesRef emptyValues

/-- Embeds the start of the worker's send path:
`report = self._queue.get().copy()` followed by the in-place windspeed
conversion — the mutation acts on the dictionary the copy's reference
designates. -/
def workerConvertStep (store : List Values) (r : PyReport) : List Values × PyReport :=
  let c := reportCopy r
  (store.set c.valuesRef (convertWind (getValues store c)), c)

/-- Which fields some sentence of `ms` names. -/
def coveredBy (ms : List (List Char)) (f : Field) : Bool :=
  ms.any (fun m => f ∈ fieldsOf m)

/-- Whether the fields already set in `rv` together with the fields named
by the sentences of `ms` cover all six required fields. -/
def coversFrom (rv : Values) (ms : List (List Char)) : Bool :=
  allFields.all (fun f => (getF f rv).isSome || coveredBy ms f)

/-- Whether the sentences of `ms` name every required field at least
once. -/
def coversAll (ms : List (List Char)) : Bool :=
  allFields.all (coveredBy ms)

theorem finishedV_iff (v : Values) :
    finishedV v = allFields.all (fun f => (getF f v).isSome) := by
  simp [finishedV, allFields, getF, Bool.and_assoc]

theorem drop_indexOf_lt {raw : List Char} (h : '\n' ∈ raw) :
    (raw.drop (raw.indexOf '\n' + 1)).length < raw.length := by
  have hlt : raw.indexOf '\n' < raw.length := List.indexOf_lt_length.2 h
  simp only [List.length_drop]
  omega

theorem extractFuel_eq_of_le :
    ∀ (n m : ℕ) (raw : List Char), raw.length ≤ n → raw.length ≤ m →
      extractFuel n raw = extractFuel m raw := by
  intro n
  induction n with
  | zero =>
      intro m raw hn _
      have : raw = [] := List.length_eq_zero.1 (Nat.le_zero.1 hn)
      subst this
      cases m <;> simp [extractFuel]
  | succ n ih =>
      intro m raw hn hm
      cases m with
      | zero =>
          have : raw = [] := List.length_eq_zero.1 (Nat.le_zero.1 hm)
          subst this
          simp [extractFuel]
      | succ m =>
          by_cases h : '\n' ∈ raw
          · have hlen := drop_indexOf_lt h
            simp only [extractFuel, if_pos h]
            rw [ih m (raw.drop (raw.indexOf '\n' + 1)) (by omega) (by omega)]
          · simp [extractFuel, h]

/-- Unfolding equation for `extractMessages` when a newline is present. -/
theorem extractMessages_pos {raw : List Char} (h : '\n' ∈ raw) :
    extractMessages raw =
      (raw.take (raw.indexOf '\n' + 1) ::
          (extractMessages (raw.drop (raw.indexOf '\n' + 1))).1,
        (extractMessages (raw.drop (raw.indexOf '\n' + 1))).2) := by
  have hne : raw ≠ [] := by rintro rfl; simp at h
  have hlen : raw.length ≠ 0 := by simpa using fun hz => hne (List.length_eq_zero.1 hz)
  unfold extractMessages
  rcases hn : raw.length with _ | n
  · exact absurd hn hlen
  · have hrest := drop_indexOf_lt h
    simp only [extractFuel, if_pos h]
    rw [extractFuel_eq_of_le n ((raw.drop (raw.indexOf '\n' + 1)).length)
      (raw.drop (raw.indexOf '\n' + 1)) (by omega) le_rfl]

/-- Unfolding equation for `extractMessages` when no newline is present. -/
theorem extractMessages_neg {raw : List Char} (h : '\n' ∉ raw) :
    extractMessages raw = ([], raw) := by
  unfold extractMessages
  cases hn : raw.length with
  | zero => simp [extractFuel]
  | succ n => simp [extractFuel, h]

theorem take_append_of_le {l₁ l₂ : List Char} {n : ℕ} (h : n ≤ l₁.length) :
    (l₁ ++ l₂).take n = l₁.take n := by
  rw [List.take_append_eq_append_take, Nat.sub_eq_zero_of_le h]
  simp

theorem drop_append_of_le {l₁ l₂ : List Char} {n : ℕ} (h : n ≤ l₁.length) :
    (l₁ ++ l₂).drop n = l₁.drop n ++ l₂ := by
  rw [List.drop_append_eq_append_drop, Nat.sub_eq_zero_of_le h]
  simp

/-- Lossless decomposition: the extracted messages, concatenated, followed
by the remainder, reconstruct the input. -/
theorem extract_join (raw : List Char) :
    (extractMessages raw).1.flatten ++ (extractMessages raw).2 = raw := by
  by_cases h : '\n' ∈ raw
  · have ih := extract_join (raw.drop (raw.indexOf '\n' + 1))
    rw [extractMessages_pos h]
    simp only [List.flatten_cons, List.append_assoc, ih, List.take_append_drop]
  · rw [extractMessages_neg h]
    simp
termination_by raw.length
decreasing_by exact drop_indexOf_lt h

/-- The remainder returned by `_extract_messages` never contains a
newline. -/
theorem extract_rem_no_newline (raw : List Char) :
    '\n' ∉ (extractMessages raw).2 := by
  by_cases h : '\n' ∈ raw
  · have ih := extract_rem_no_newline (raw.drop (raw.indexOf '\n' + 1))
    rw [extractMessages_pos h]
    exact ih
  · rw [extractMessages_neg h]
    exact h
termination_by raw.length
decreasing_by exact drop_indexOf_lt h

/-- Incrementality of `_extract_messages`: extracting from `raw ++ more`
yields the messages of `raw` followed by the messages of the remainder of
`raw` re-fed with `more`. -/
theorem extract_append (raw more : List Char) :
    extractMessages (raw ++ more) =
      ((extractMessages raw).1 ++
          (extractMessages ((extractMessages raw).2 ++ more)).1,
        (extractMessages ((extractMessages raw).2 ++ more)).2) := by
  by_cases h : '\n' ∈ raw
  · have ih := extract_append (raw.drop (raw.indexOf '\n' + 1)) more
    have hmem : '\n' ∈ raw ++ more := List.mem_append_left _ h
    have hpos : raw.indexOf '\n' + 1 ≤ raw.length := List.indexOf_lt_length.2 h
    have hidx : (raw ++ more).indexOf '\n' = raw.indexOf '\n' :=
      List.indexOf_append_of_mem h
    rw [extractMessages_pos hmem, extractMessages_pos h, hidx,
      take_append_of_le hpos, drop_append_of_le hpos, ih]
    simp
  · rw [extractMessages_neg h]
    simp
termination_by raw.length
decreasing_by exact drop_indexOf_lt h

theorem feedChunks_eq_extract (chunks : List (List Char)) :
    ∀ rem : List Char, '\n' ∉ rem →
      feedChunks rem chunks = extractMessages (rem ++ chunks.flatten) := by
  induction chunks with
  | nil =>
      intro rem h
      simp [feedChunks, extractMessages_neg h]
  | cons c cs ih =>
      intro rem h
      have hr := extract_rem_no_newline (rem ++ c)
      simp only [feedChunks, ih _ hr, List.flatten_cons, ← List.append_assoc]
      rw [extract_append (rem ++ c) cs.flatten]

theorem pyFloat_12_5 : pyFloat ['1', '2', '.', '5', '\n'] = some (25/2) := by
  simp [pyFloat, stripWs, parseUnsigned, natVal, isPyWs, List.dropWhile, List.takeWhile]
  norm_num

theorem pyFloat_180 : pyFloat ['1', '8', '0'] = some 180 := by
  simp [pyFloat, stripWs, parseUnsigned, natVal, isPyWs, List.dropWhile, List.takeWhile]
  norm_num

theorem pyFloat_3_2 : pyFloat ['3', '.', '2', '\n'] = some (16/5) := by
  simp [pyFloat, stripWs, parseUnsigned, natVal, isPyWs, List.dropWhile, List.takeWhile]
  norm_num

theorem pyFloat_55 : pyFloat ['5', '5'] = some 55 := by
  simp [pyFloat, stripWs, parseUnsigned, natVal, isPyWs, List.dropWhile, List.takeWhile]
  norm_num

theorem pyFloat_9_1 : pyFloat ['9', '.', '1', '\n'] = some (91/10) := by
  simp [pyFloat, stripWs, parseUnsigned, natVal, isPyWs, List.dropWhile, List.takeWhile]
  norm_num

theorem pyFloat_1013_2 : pyFloat ['1', '0', '1', '3', '.', '2', '\n'] = some (5066/5) := by
  simp [pyFloat, stripWs, parseUnsigned, natVal, isPyWs, List.dropWhile, List.takeWhile]
  norm_num

theorem c1_extract : extractMessages c1Bytes =
    (["$WIMTA,12.5\n".toList, "$WIMWV,180,,3.2\n".toList,
      "$WIMHU,55,,9.1\n".toList, "$WIMMB,,,1013.2\n".toList], []) := by decide

/-- The scenario's four sentences, analysed on their own contents as the
docstrings intend, set the six fields one by one and complete the report
at the fourth sentence. -/
theorem c1_run (t : ℚ) :
    runMsgsT emptyValues [("$WIMTA,12.5\n".toList, t), ("$WIMWV,180,,3.2\n".toList, t),
      ("$WIMHU,55,,9.1\n".toList, t), ("$WIMMB,,,1013.2\n".toList, t)] =
    (emptyValues, [(t, ⟨some (25/2), some 180, some (16/5), some 55, some (91/10),
      some (5066/5)⟩)], false) := by
  have a1 : analyseData emptyValues "$WIMTA,12.5\n".toList =
      ⟨⟨some (25/2), none, none, none, none, none⟩, none, false⟩ := by
    simp [analyseData, splitComma, fieldFloat, finCheck, finishedV, emptyValues, pyFloat_12_5]
  have a2 : analyseData ⟨some (25/2), none, none, none, none, none⟩
      "$WIMWV,180,,3.2\n".toList =
      ⟨⟨some (25/2), some 180, some (16/5), none, none, none⟩, none, false⟩ := by
    simp [analyseData, splitComma, fieldFloat, finCheck, finishedV, pyFloat_180, pyFloat_3_2]
  have a3 : analyseData ⟨some (25/2), some 180, some (16/5), none, none, none⟩
      "$WIMHU,55,,9.1\n".toList =
      ⟨⟨some (25/2), some 180, some (16/5), some 55, some (91/10), none⟩, none, false⟩ := by
    simp [analyseData, splitComma, fieldFloat, finCheck, finishedV, pyFloat_55, pyFloat_9_1]
  have a4 : analyseData ⟨some (25/2), some 180, some (16/5), some 55, some (91/10), none⟩
      "$WIMMB,,,1013.2\n".toList =
      ⟨emptyValues, some ⟨some (25/2), some 180, some (16/5), some 55, some (91/10),
        some (5066/5)⟩, false⟩ := by
    simp [analyseData, splitComma, fieldFloat, finCheck, finishedV, emptyValues, pyFloat_1013_2]
  simp only [List.map, runMsgsT, a1, a2, a3, a4, Option.map_some, Option.map_none,
    Option.toList, List.nil_append]
  simp

/-- C1.  The specification's scenario claims the callback fires exactly
once with temp=12.5, winddir=180, windspeed=3.2, humid=55, dewpoint=9.1,
press=1013.2.  The code as written invokes the callback zero times on
this input: `_analyse_message` ignores its `raw_data` argument and reads
`self._raw_data`, which after extraction holds the empty remainder, so
every call returns at the no-data guard (first conjunct).  With the
argument analysed as the docstrings and the call site intend, the
callback fires exactly once with exactly the claimed values (second
conjunct). -/
theorem claim_c1_scenario :
    (readDataActual emptyValues [] c1Bytes).emitted = [] ∧
    (readDataActual emptyValues [] c1Bytes).raised = false ∧
    ∀ t : ℚ, (readDataIntended emptyValues [] c1Bytes t).emitted =
        [⟨some (25/2), some 180, some (16/5), some 55, some (91/10), some (5066/5)⟩] ∧
      (readDataIntended emptyValues [] c1Bytes t).raised = false := by
  refine ⟨by decide, by decide, fun t => ?_⟩
  simp only [readDataIntended, List.nil_append, c1_extract, c1_run, List.map_cons, List.map_nil]
  simp

/-- Closed form of the backoff evolution under consecutive failures: after
`k` failed attempts the counter is `k` and the sleep time is
`2 ^ (k / 10 % 11)` — it doubles on every 10th failure through
1, 2, 4, …, 512, 1024 and then resets to 1 (1024 is the first value not
below the 900 ceiling). -/
theorem pollConnectFail_iter (k : ℕ) :
    pollConnectFail^[k] pollInit = ⟨k, 2 ^ (k / 10 % 11)⟩ := by
  induction k with
  | zero => simp [pollInit, threadSleep]
  | succ k ih =>
      rw [Function.iterate_succ_apply', ih]
      unfold pollConnectFail
      simp only
      by_cases h : (k + 1) % 10 = 0
      · have hdiv : (k + 1) / 10 = k / 10 + 1 := by omega
        rw [if_pos h, hdiv]
        set d := k / 10 with hd
        have hm : d % 11 < 11 := Nat.mod_lt _ (by norm_num)
        rcases Nat.lt_or_ge (d % 11) 10 with hc | hc
        · have hlt : 2 ^ (d % 11) < maxThreadSleep := by
            calc 2 ^ (d % 11) ≤ 2 ^ 9 := Nat.pow_le_pow_right (by norm_num) (by omega)
              _ < maxThreadSleep := by norm_num [maxThreadSleep]
          have hmod : (d + 1) % 11 = d % 11 + 1 := by omega
          rw [if_pos hlt, hmod, pow_succ]
        · have he : d % 11 = 10 := by omega
          have hge : ¬ 2 ^ (d % 11) < maxThreadSleep := by
            rw [he]; norm_num [maxThreadSleep]
          have hmod : (d + 1) % 11 = 0 := by omega
          rw [if_neg hge, hmod, pow_zero, threadSleep]
      · have hdiv : (k + 1) / 10 = k / 10 := by omega
        rw [if_neg h, hdiv]

/-- C8.  Connection backoff in `_poll`: every failed connection attempt
increments `_serial_errors` by one; off the 10th-failure boundary the
sleep time is unchanged; on every 10th consecutive failure it doubles
while below `_max_thread_sleep` and otherwise resets to `_thread_sleep`;
from the initial state, `k` consecutive failures leave the counter at `k`
and the sleep at `2 ^ (k / 10 % 11)` (doubling up to the ceiling, then
resetting); a successful connection resets both to their initial
values. -/
theorem claim_c8_backoff :
    (∀ s, (pollConnectFail s).serialErrors = s.serialErrors + 1) ∧
    (∀ s, (s.serialErrors + 1) % 10 ≠ 0 → (pollConnectFail s).sleepTime = s.sleepTime) ∧
    (∀ s, (s.serialErrors + 1) % 10 = 0 →
      (pollConnectFail s).sleepTime =
        if s.sleepTime < maxThreadSleep then s.sleepTime * 2 else threadSleep) ∧
    (∀ k, pollConnectFail^[k] pollInit = ⟨k, 2 ^ (k / 10 % 11)⟩) ∧
    (∀ s, pollConnectSucc s = pollInit) := by
  refine ⟨fun s => rfl, fun s h => ?_, fun s h => ?_, pollConnectFail_iter, fun s => rfl⟩
  · simp [pollConnectFail, h]
  · simp [pollConnectFail, h]

theorem claim_c8_backoff_witness :
    (pollConnectFail ⟨0, 1⟩).serialErrors = 0 + 1 ∧
    ((⟨0, 1⟩ : PollState).serialErrors + 1) % 10 ≠ 0 ∧
    (pollConnectFail ⟨0, 1⟩).sleepTime = 1 ∧
    ((⟨9, 1⟩ : PollState).serialErrors + 1) % 10 = 0 ∧
    (pollConnectFail ⟨9, 1⟩).sleepTime =
      (if (1 : ℕ) < maxThreadSleep then 1 * 2 else threadSleep) ∧
    pollConnectFail^[10] pollInit = ⟨10, 2 ^ (10 / 10 % 11)⟩ ∧
    pollConnectSucc ⟨5, 64⟩ = pollInit :=
  ⟨claim_c8_backoff.1 ⟨0, 1⟩, by decide,
    claim_c8_backoff.2.1 ⟨0, 1⟩ (by decide), by decide,
    claim_c8_backoff.2.2.1 ⟨9, 1⟩ (by decide),
    claim_c8_backoff.2.2.2.1 10, claim_c8_backoff.2.2.2.2 ⟨5, 64⟩⟩

/-- Index multiset preservation of the retry loop: when the schedule holds
enough successful writes, every submitted entry is delivered exactly once
(the delivered indices are a permutation of the queued indices). -/
theorem sendRun_perm :
    ∀ (sched : List Bool) (q : List (ℕ × Values)), q.length ≤ sched.count true →
      ((sendRun sched q).map Prod.fst).Perm (q.map Prod.fst) := by
  intro sched
  induction sched with
  | nil =>
      intro q h
      match q with
      | [] => simp [sendRun]
      | _ :: _ => simp [List.count_nil] at h
  | cons ok sched ih =>
      intro q h
      match q with
      | [] => simp [sendRun]
      | (i, v) :: rest =>
          cases ok with
          | true =>
              have hc : rest.length ≤ sched.count true := by
                have := h
                simp [List.count_cons] at this
                omega
              simpa [sendRun] using (ih rest hc).cons i
          | false =>
              have hc : (rest ++ [(i, convertWind v)]).length ≤ sched.count true := by
                have := h
                simp [List.count_cons] at this
                simp
                omega
              have hperm := ih (rest ++ [(i, convertWind v)]) hc
              simp only [sendRun]
              refine hperm.trans ?_
              simp only [List.map_append, List.map_cons, List.map_nil]
              exact List.perm_append_singleton i (rest.map Prod.fst)

/-- C2 counterexample.  The code pushes a failed entry back with
`queue.put`, which appends at the tail, not the head: with two queued
reports and the schedule fail–succeed–succeed, the single worker step on
the failure moves entry 0 behind entry 1, and the successful writes
arrive as indices `[1, 0]` — not in the original submission order
`[0, 1]`. -/
theorem claim_c2_head_order_counterexample :
    workerStep cfgAll false ⟨[(0, emptyValues), (1, emptyValues)], false, .atGet⟩ =
      some (⟨[(1, emptyValues), (0, emptyValues)], false, .loopCheck⟩, none) ∧
    sendRun [false, true, true] [(0, emptyValues), (1, emptyValues)] =
      [(1, emptyValues), (0, emptyValues)] ∧
    (sendRun [false, true, true] [(0, emptyValues), (1, emptyValues)]).map Prod.fst ≠
      [0, 1] := by
  refine ⟨by decide, by decide, by decide⟩

/-- C2 (amended).  A transiently failed entry is re-enqueued at the tail
of the queue (`queue.put`); consequently, for every submitted queue and
every schedule whose successful-write count covers the queue, the sink's
successful writes cover every submitted report exactly once — a
permutation of the submitted indices, though not necessarily in the
original relative submission order. -/
theorem claim_c2_retry_delivery (sched : List Bool) (q : List (ℕ × Values))
    (h : q.length ≤ sched.count true) :
    ((sendRun sched q).map Prod.fst).Perm (q.map Prod.fst) :=
  sendRun_perm sched q h

theorem claim_c2_retry_delivery_witness :
    ([(0, emptyValues), (1, emptyValues)] : List (ℕ × Values)).length ≤
      [false, true, true].count true ∧
    ((sendRun [false, true, true] [(0, emptyValues), (1, emptyValues)]).map
        Prod.fst).Perm
      (([(0, emptyValues), (1, emptyValues)] : List (ℕ × Values)).map Prod.fst) :=
  ⟨by decide,
    claim_c2_retry_delivery [false, true, true] [(0, emptyValues), (1, emptyValues)]
      (by decide)⟩

/-- C4.  The worker converts the dequeued copy's windspeed in place and
re-enqueues that converted copy on failure, so the retried entry does not
carry the submitted payload: after one transient failure the queued
windspeed is 3.2·3.6 = 11.52 ≠ 3.2, and the eventually delivered value is
3.2·3.6² = 41.472 — the conversion is applied once per attempt, not
once. -/
theorem claim_c4_retry_payload_changes :
    workerStep cfgAll false ⟨[(0, wsReport)], false, .atGet⟩ =
      some (⟨[(0, { wsReport with windspeed := some (288/25) })], false, .loopCheck⟩,
        none) ∧
    some (288/25 : ℚ) ≠ wsReport.windspeed ∧
    sendRun [false, true] [(0, wsReport)] =
      [(0, { wsReport with windspeed := some (5184/125) })] ∧
    some (5184/125 : ℚ) ≠ wsReport.windspeed := by
  have hconv : convertWind wsReport = { wsReport with windspeed := some (288/25) } := by
    simp only [convertWind, wsReport]
    norm_num
  have hconv2 : convertWind { wsReport with windspeed := some (288/25) } =
      { wsReport with windspeed := some (5184/125) } := by
    simp only [convertWind, wsReport]
    norm_num
  refine ⟨?_, ?_, ?_, ?_⟩
  · simp [workerStep, hconv]
  · simp only [wsReport]
    intro h
    rw [Option.some_inj] at h
    norm_num at h
  · simp only [sendRun, hconv, hconv2]
    simp [sendRun]
  · simp only [wsReport]
    intro h
    rw [Option.some_inj] at h
    norm_num at h

/-- C7.  `Influx.stop()` does not always return.  With a configured
client, from the start of the worker the state with an empty queue and
the worker inside `queue.get()` is reachable in two steps; `stop()` then
sets `_closing`, but `queue.get()` has no timeout and does not observe
`_closing`, so no step is possible (`workerStep` is `none` for every
write outcome), the worker never reaches the exited state under any
schedule, and `self._thread.join()` blocks forever. -/
theorem claim_c7_stop_can_hang :
    workerStep cfgAll true ⟨[], false, .clientCheck⟩ =
      some (⟨[], false, .loopCheck⟩, none) ∧
    workerStep cfgAll true ⟨[], false, .loopCheck⟩ =
      some (⟨[], false, .atGet⟩, none) ∧
    setClosing ⟨[], false, .atGet⟩ = ⟨[], true, .atGet⟩ ∧
    (∀ ok, workerStep cfgAll ok ⟨[], true, .atGet⟩ = none) ∧
    (⟨[], true, .atGet⟩ : WorkerSt).pc ≠ .exited ∧
    ∀ oks, (workerIter cfgAll oks ⟨[], true, .atGet⟩).pc ≠ .exited := by
  refine ⟨by decide, by decide, by decide, by decide, by decide, ?_⟩
  intro oks
  cases oks with
  | nil => decide
  | cons ok oks => simp [workerIter, workerStep]

/-- C9.  Constructing `Influx` without complete credentials creates no
client: submission (`__call__`) accepts every report and leaves the queue
unchanged, the worker (`_send_measurements`) exits at its first step via
the `if self._client is None: return` guard, and no report is ever
written under any schedule — no error anywhere. -/
theorem claim_c9_no_credentials (cfg : InfluxCfg)
    (h : cfg.url = none ∨ cfg.token = none ∨ cfg.org = none ∨ cfg.bucket = none) :
    clientConfigured cfg = false ∧
    (∀ q e, influxCall cfg q e = q) ∧
    (∀ ok q c, workerStep cfg ok ⟨q, c, .clientCheck⟩ = some (⟨q, c, .exited⟩, none)) ∧
    (∀ oks q c, workerTrace cfg oks ⟨q, c, .clientCheck⟩ = []) := by
  have hcc : clientConfigured cfg = false := by
    obtain ⟨u, t, o, b⟩ := cfg
    rcases h with h | h | h | h <;> simp_all [clientConfigured]
  have hexit : ∀ oks q c, workerTrace cfg oks (⟨q, c, .exited⟩ : WorkerSt) = [] := by
    intro oks q c
    cases oks <;> simp [workerTrace, workerStep]
  refine ⟨hcc, fun q e => by simp [influxCall, hcc], fun ok q c => by simp [workerStep, hcc],
    fun oks q c => ?_⟩
  cases oks with
  | nil => rfl
  | cons ok oks => simp [workerTrace, workerStep, hcc, hexit]

theorem claim_c9_no_credentials_witness :
    ((⟨none, none, none, none⟩ : InfluxCfg).url = none ∨
      (⟨none, none, none, none⟩ : InfluxCfg).token = none ∨
      (⟨none, none, none, none⟩ : InfluxCfg).org = none ∨
      (⟨none, none, none, none⟩ : InfluxCfg).bucket = none) ∧
    (clientConfigured ⟨none, none, none, none⟩ = false ∧
      (∀ q e, influxCall ⟨none, none, none, none⟩ q e = q) ∧
      (∀ ok q c, workerStep ⟨none, none, none, none⟩ ok ⟨q, c, .clientCheck⟩ =
        some (⟨q, c, .exited⟩, none)) ∧
      (∀ oks q c, workerTrace ⟨none, none, none, none⟩ oks ⟨q, c, .clientCheck⟩ = [])) :=
  ⟨Or.inl rfl, claim_c9_no_credentials ⟨none, none, none, none⟩ (Or.inl rfl)⟩

/-- C10.  `Report.copy` is shallow: the copy shares the original's
`values` dictionary (same reference, same time), so the worker's in-place
windspeed conversion performed through the copy is observable through the
original report. -/
theorem claim_c10_shallow_copy (store : List Values) (r : PyReport) :
    (reportCopy r).valuesRef = r.valuesRef ∧
    (reportCopy r).time = r.time ∧
    getValues (workerConvertStep store r).1 r = convertWind (getValues store r) := by
  refine ⟨rfl, rfl, ?_⟩
  by_cases h : r.valuesRef < store.length
  · simp [getValues, workerConvertStep, reportCopy, List.getD_eq_getElem?_getD,
      List.getElem?_set_self, h]
  · have hle : store.length ≤ r.valuesRef := by omega
    have hnone : store[r.valuesRef]? = none := List.getElem?_eq_none hle
    simp [workerConvertStep, reportCopy, getValues, List.getD_eq_getElem?_getD,
      List.set_eq_of_length_le hle, hnone, convertWind, emptyValues]

theorem coversFrom_nil (rv : Values) : coversFrom rv [] = finishedV rv := by
  rw [finishedV_iff]
  simp [coversFrom, coveredBy]

/-- One non-raising `_analyse_message` call on a non-finished report is
the completion check applied to the report with the sentence's fields
set: there is a `w` agreeing with `rv` off the sentence's fields and
having exactly the sentence's fields additionally present, with the call
returning `finCheck w`. -/
theorem analyse_step_facts (rv : Values) (m : List Char)
    (hr : (analyseData rv m).raised = false) (hf : finishedV rv = false) :
    ∃ w : Values,
      (∀ f : Field, (getF f w).isSome = ((getF f rv).isSome || decide (f ∈ fieldsOf m))) ∧
      analyseData rv m = finCheck w := by
  unfold analyseData at hr ⊢
  by_cases hg : (m.length = 0 || m = ['\n']) = true
  · rw [if_pos hg] at hr ⊢
    have hfo : fieldsOf m = [] := by unfold fieldsOf; rw [if_pos hg]
    refine ⟨rv, fun f => by simp [hfo], ?_⟩
    unfold finCheck
    rw [if_neg (by simp [hf])]
  · rw [if_neg hg] at hr ⊢
    by_cases h1 : (splitComma m).headD [] = "$WIMTA".toList
    · rw [if_pos h1] at hr ⊢
      have hfo : fieldsOf m = [.temp] := by
        unfold fieldsOf; rw [if_neg hg, if_pos h1]
      cases hff : fieldFloat (splitComma m) 1 with
      | none => rw [hff] at hr; simp at hr
      | some x =>
          refine ⟨{ rv with temp := some x }, fun f => ?_, rfl⟩
          cases f <;> simp [getF, hfo]
    · rw [if_neg h1] at hr ⊢
      by_cases h2 : (splitComma m).headD [] = "$WIMWV".toList
      · rw [if_pos h2] at hr ⊢
        have hfo : fieldsOf m = [.winddir, .windspeed] := by
          unfold fieldsOf; rw [if_neg hg, if_neg h1, if_pos h2]
        cases hff : fieldFloat (splitComma m) 1 with
        | none => rw [hff] at hr; simp at hr
        | some x =>
            rw [hff] at hr
            cases hff3 : fieldFloat (splitComma m) 3 with
            | none => rw [hff3] at hr; simp at hr
            | some y =>
                refine ⟨{ rv with winddir := some x, windspeed := some y },
                  fun f => ?_, rfl⟩
                cases f <;> simp [getF, hfo]
      · rw [if_neg h2] at hr ⊢
        by_cases h3 : (splitComma m).headD [] = "$WIMHU".toList
        · rw [if_pos h3] at hr ⊢
          have hfo : fieldsOf m = [.humid, .dewpoint] := by
            unfold fieldsOf; rw [if_neg hg, if_neg h1, if_neg h2, if_pos h3]
          cases hff : fieldFloat (splitComma m) 1 with
          | none => rw [hff] at hr; simp at hr
          | some x =>
              rw [hff] at hr
              cases hff3 : fieldFloat (splitComma m) 3 with
              | none => rw [hff3] at hr; simp at hr
              | some y =>
                  refine ⟨{ rv with humid := some x, dewpoint := some y },
                    fun f => ?_, rfl⟩
                  cases f <;> simp [getF, hfo]
        · rw [if_neg h3] at hr ⊢
          by_cases h4 : (splitComma m).headD [] = "$WIMMB".toList
          · rw [if_pos h4] at hr ⊢
            have hfo : fieldsOf m = [.press] := by
              unfold fieldsOf; rw [if_neg hg, if_neg h1, if_neg h2, if_neg h3, if_pos h4]
            cases hff : fieldFloat (splitComma m) 3 with
            | none => rw [hff] at hr; simp at hr
            | some x =>
                refine ⟨{ rv with press := some x }, fun f => ?_, rfl⟩
                cases f <;> simp [getF, hfo]
          · rw [if_neg h4] at hr ⊢
            have hfo : fieldsOf m = [] := by
              unfold fieldsOf; rw [if_neg hg, if_neg h1, if_neg h2, if_neg h3, if_neg h4]
            exact ⟨rv, fun f => by simp [hfo], rfl⟩

/-- Every branch of `_analyse_message` either leaves `emitted` empty or
ends in the completion check. -/
theorem analyse_shape (rv : Values) (m : List Char) :
    (analyseData rv m).emitted = none ∨ ∃ w, analyseData rv m = finCheck w := by
  unfold analyseData
  by_cases hg : (m.length = 0 || m = ['\n']) = true
  · rw [if_pos hg]; exact Or.inl rfl
  · rw [if_neg hg]
    by_cases h1 : (splitComma m).headD [] = "$WIMTA".toList
    · rw [if_pos h1]
      cases fieldFloat (splitComma m) 1 with
      | none => exact Or.inl rfl
      | some x => exact Or.inr ⟨_, rfl⟩
    · rw [if_neg h1]
      by_cases h2 : (splitComma m).headD [] = "$WIMWV".toList
      · rw [if_pos h2]
        cases fieldFloat (splitComma m) 1 with
        | none => exact Or.inl rfl
        | some x =>
            cases fieldFloat (splitComma m) 3 with
            | none => exact Or.inl rfl
            | some y => exact Or.inr ⟨_, rfl⟩
      · rw [if_neg h2]
        by_cases h3 : (splitComma m).headD [] = "$WIMHU".toList
        · rw [if_pos h3]
          cases fieldFloat (splitComma m) 1 with
          | none => exact Or.inl rfl
          | some x =>
              cases fieldFloat (splitComma m) 3 with
              | none => exact Or.inl rfl
              | some y => exact Or.inr ⟨_, rfl⟩
        · rw [if_neg h3]
          by_cases h4 : (splitComma m).headD [] = "$WIMMB".toList
          · rw [if_pos h4]
            cases fieldFloat (splitComma m) 3 with
            | none => exact Or.inl rfl
            | some x => exact Or.inr ⟨_, rfl⟩
          · rw [if_neg h4]; exact Or.inr ⟨rv, rfl⟩

/-- An emitted report is finished, the in-progress report restarts empty,
and an emitting call did not raise. -/
theorem analyse_emitted_finished (rv : Values) (m : List Char) (e : Values)
    (he : (analyseData rv m).emitted = some e) :
    finishedV e = true ∧ (analyseData rv m).values = emptyValues ∧
      (analyseData rv m).raised = false := by
  rcases analyse_shape rv m with h | ⟨w, hw⟩
  · rw [h] at he; exact absurd he (by simp)
  · rw [hw] at he ⊢
    unfold finCheck at he ⊢
    by_cases hfin : finishedV w = true
    · rw [if_pos hfin] at he ⊢
      simp only [AnalyseResult.emitted] at he
      obtain rfl : w = e := by simpa using he
      exact ⟨hfin, rfl, rfl⟩
    · rw [if_neg hfin] at he
      exact absurd he (by simp)

theorem coversFrom_cons (rv w : Values) (m : List Char) (l : List (List Char))
    (hw : ∀ f : Field, (getF f w).isSome = ((getF f rv).isSome || decide (f ∈ fieldsOf m))) :
    coversFrom rv (m :: l) = coversFrom w l := by
  simp [coversFrom, coveredBy, hw, Bool.or_assoc]

theorem runMsgsT_cons (rv : Values) (m : List Char) (t : ℚ) (rest : List (List Char × ℚ)) :
    runMsgsT rv ((m, t) :: rest) =
      if (analyseData rv m).raised then ((analyseData rv m).values, [], true)
      else ((runMsgsT (analyseData rv m).values rest).1,
        ((analyseData rv m).emitted.map fun e => (t, e)).toList ++
          (runMsgsT (analyseData rv m).values rest).2.1,
        (runMsgsT (analyseData rv m).values rest).2.2) := rfl

/-- Leading up to the first completion: if the run raises nowhere and the
sentences (together with the fields already present) cover the six
required fields, there is a first index `k` whose sentence completes the
set, at which the run up to and including `k` performs exactly one
emission — a finished report stamped with that sentence's processing
instant — and restarts from a fresh empty report. -/
theorem runMsgsT_first_completion :
    ∀ (ms : List (List Char × ℚ)) (rv : Values),
      (runMsgsT rv ms).2.2 = false →
      finishedV rv = false →
      coversFrom rv (ms.map Prod.fst) = true →
      ∃ (k : ℕ) (hk : k < ms.length),
        coversFrom rv ((ms.map Prod.fst).take (k + 1)) = true ∧
        coversFrom rv ((ms.map Prod.fst).take k) = false ∧
        ∃ e, finishedV e = true ∧
          runMsgsT rv (ms.take (k + 1)) = (emptyValues, [((ms.get ⟨k, hk⟩).2, e)], false) := by
  intro ms
  induction ms with
  | nil =>
      intro rv hr hf hc
      rw [List.map_nil, coversFrom_nil, hf] at hc
      exact absurd hc (by simp)
  | cons p rest ih =>
      intro rv hr hf hc
      obtain ⟨m, t⟩ := p
      rw [runMsgsT_cons] at hr
      by_cases hb : (analyseData rv m).raised = true
      · rw [if_pos hb] at hr; exact absurd hr (by simp)
      · rw [if_neg hb] at hr
        simp only at hr
        have hra : (analyseData rv m).raised = false := by
          revert hb; cases (analyseData rv m).raised <;> simp
        obtain ⟨w, hw, heq⟩ := analyse_step_facts rv m hra hf
        by_cases hfin : finishedV w = true
        · refine ⟨0, by simp, ?_, ?_, w, hfin, ?_⟩
          · rw [List.map_cons]
            rw [List.take_succ_cons, List.take_zero]
            unfold coversFrom
            refine List.all_eq_true.2 fun f hf' => ?_
            have h1 := hw f
            have h2 : (getF f w).isSome = true := by
              rw [finishedV_iff] at hfin
              exact List.all_eq_true.1 hfin f hf'
            rw [h2] at h1
            simp only [coveredBy, List.any_cons, List.any_nil, Bool.or_false]
            exact h1.symm
          · rw [List.take_zero, coversFrom_nil, hf]
          · rw [List.take_succ_cons, List.take_zero, runMsgsT_cons, if_neg hb]
            rw [heq]
            unfold finCheck
            rw [if_pos hfin]
            simp [runMsgsT]
        · have hem : analyseData rv m = ⟨w, none, false⟩ := by
            rw [heq]; unfold finCheck; rw [if_neg hfin]
          have hcc : coversFrom w (rest.map Prod.fst) = true := by
            have hc' : coversFrom rv (m :: rest.map Prod.fst) = true := by
              simpa using hc
            rw [coversFrom_cons rv w m _ hw] at hc'
            exact hc'
          have hrz : (runMsgsT (analyseData rv m).values rest).2.2 = false := hr
          rw [hem] at hrz
          simp only at hrz
          obtain ⟨k', hk', h1, h0, e, hfe, hrun⟩ := ih w hrz (by
            revert hfin; cases finishedV w <;> simp) hcc
          refine ⟨k' + 1, by simpa using Nat.succ_lt_succ hk', ?_, ?_, e, hfe, ?_⟩
          · rw [List.map_cons, List.take_succ_cons, coversFrom_cons rv w m _ hw]
            exact h1
          · rw [List.map_cons, List.take_succ_cons, coversFrom_cons rv w m _ hw]
            exact h0
          · rw [List.take_succ_cons, runMsgsT_cons, if_neg hb, hem]
            simp only [Option.map_none, Option.toList, List.nil_append]
            rw [hrun]
            simp [List.get_cons_succ]

/-- No emission of a raise-free run ever lacks a required field. -/
theorem runMsgsT_emits_finished :
    ∀ (ms : List (List Char × ℚ)) (rv : Values),
      ∀ e ∈ (runMsgsT rv ms).2.1, finishedV e.2 = true := by
  intro ms
  induction ms with
  | nil => intro rv e he; simp [runMsgsT] at he
  | cons p rest ih =>
      intro rv e he
      obtain ⟨m, t⟩ := p
      rw [runMsgsT_cons] at he
      by_cases hb : (analyseData rv m).raised = true
      · rw [if_pos hb] at he; simp at he
      · rw [if_neg hb] at he
        simp only at he
        rcases List.mem_append.1 he with hl | hrr
        · cases hemit : (analyseData rv m).emitted with
          | none => rw [hemit] at hl; simp at hl
          | some e' =>
              rw [hemit] at hl
              simp [Option.toList] at hl
              subst hl
              exact (analyse_emitted_finished rv m e' hemit).1
        · exact ih _ e hrr

theorem coversFrom_empty (ms : List (List Char)) :
    coversFrom emptyValues ms = coversAll ms := by
  simp [coversFrom, coversAll, allFields, coveredBy, getF, emptyValues]

/-- C3.  First conjunct: on the specification's own covering sentence
sequence the code as written emits nothing (`_analyse_message` inspects
the empty post-extraction remainder instead of each sentence).  Second
conjunct, for the intended assembler (each sentence analysed itself): in
every raise-free run from a fresh report, every emission is a finished
report; and if the sentences cover all six required fields there is a
first index `k` whose sentence completes the set — the prefix through `k`
covers, the prefix before `k` does not — and the run through `k` emits
exactly once: a finished report stamped with sentence `k`'s processing
instant, after which the in-progress report is fresh and empty. -/
theorem claim_c3_completion_policy :
    ((readDataActual emptyValues [] c1Bytes).emitted = [] ∧
      coversAll (extractMessages c1Bytes).1 = true) ∧
    ∀ (ms : List (List Char × ℚ)),
      (runMsgsT emptyValues ms).2.2 = false →
      (∀ e ∈ (runMsgsT emptyValues ms).2.1, finishedV e.2 = true) ∧
      (coversAll (ms.map Prod.fst) = true →
        ∃ (k : ℕ) (hk : k < ms.length),
          coversAll ((ms.map Prod.fst).take (k + 1)) = true ∧
          coversAll ((ms.map Prod.fst).take k) = false ∧
          ∃ e, finishedV e = true ∧
            runMsgsT emptyValues (ms.take (k + 1)) =
              (emptyValues, [((ms.get ⟨k, hk⟩).2, e)], false)) := by
  refine ⟨⟨by decide, by decide⟩, fun ms hr => ⟨runMsgsT_emits_finished ms emptyValues, ?_⟩⟩
  intro hc
  have hf : finishedV emptyValues = false := by decide
  obtain ⟨k, hk, h1, h0, e, hfe, hrun⟩ :=
    runMsgsT_first_completion ms emptyValues hr hf
      (by rw [coversFrom_empty]; exact hc)
  exact ⟨k, hk, by rw [← coversFrom_empty]; exact h1,
    by rw [← coversFrom_empty]; exact h0, e, hfe, hrun⟩

/-- A raising `_analyse_message` call emits nothing and leaves every
field the failing sentence does not name unchanged (a field of the same
sentence assigned before the failing `float` may have been updated). -/
theorem analyse_raise_facts (rv : Values) (m : List Char)
    (hr : (analyseData rv m).raised = true) :
    (analyseData rv m).emitted = none ∧
    ∀ f : Field, f ∉ fieldsOf m → getF f (analyseData rv m).values = getF f rv := by
  have hfc : ∀ w : Values, (finCheck w).raised = false := by
    intro w; unfold finCheck; split <;> rfl
  unfold analyseData at hr ⊢
  by_cases hg : (m.length = 0 || m = ['\n']) = true
  · rw [if_pos hg] at hr; simp at hr
  · rw [if_neg hg] at hr ⊢
    by_cases h1 : (splitComma m).headD [] = "$WIMTA".toList
    · rw [if_pos h1] at hr ⊢
      cases hff : fieldFloat (splitComma m) 1 with
      | none => exact ⟨rfl, fun f _ => rfl⟩
      | some x => rw [hff] at hr; exact absurd hr (by simp [hfc])
    · rw [if_neg h1] at hr ⊢
      by_cases h2 : (splitComma m).headD [] = "$WIMWV".toList
      · rw [if_pos h2] at hr ⊢
        have hfo : fieldsOf m = [.winddir, .windspeed] := by
          unfold fieldsOf; rw [if_neg hg, if_neg h1, if_pos h2]
        cases hff : fieldFloat (splitComma m) 1 with
        | none => exact ⟨rfl, fun f _ => rfl⟩
        | some x =>
            rw [hff] at hr
            cases hff3 : fieldFloat (splitComma m) 3 with
            | none =>
                refine ⟨rfl, fun f hf => ?_⟩
                rw [hfo] at hf
                cases f <;> simp_all [getF]
            | some y => rw [hff3] at hr; exact absurd hr (by simp [hfc])
      · rw [if_neg h2] at hr ⊢
        by_cases h3 : (splitComma m).headD [] = "$WIMHU".toList
        · rw [if_pos h3] at hr ⊢
          have hfo : fieldsOf m = [.humid, .dewpoint] := by
            unfold fieldsOf; rw [if_neg hg, if_neg h1, if_neg h2, if_pos h3]
          cases hff : fieldFloat (splitComma m) 1 with
          | none => exact ⟨rfl, fun f _ => rfl⟩
          | some x =>
              rw [hff] at hr
              cases hff3 : fieldFloat (splitComma m) 3 with
              | none =>
                  refine ⟨rfl, fun f hf => ?_⟩
                  rw [hfo] at hf
                  cases f <;> simp_all [getF]
              | some y => rw [hff3] at hr; exact absurd hr (by simp [hfc])
        · rw [if_neg h3] at hr ⊢
          by_cases h4 : (splitComma m).headD [] = "$WIMMB".toList
          · rw [if_pos h4] at hr ⊢
            cases hff : fieldFloat (splitComma m) 3 with
            | none => exact ⟨rfl, fun f _ => rfl⟩
            | some x => rw [hff] at hr; exact absurd hr (by simp [hfc])
          · rw [if_neg h4] at hr; exact absurd hr (by simp [hfc])

/-- C6 (amended).  A recognized sentence with an unparsable numeric field
makes `_analyse_message` raise; the raising call emits nothing, every
field the sentence does not name keeps its previous value, and the raise
aborts the remainder of the current message batch (the poll loop's bare
`except` then resumes with later reads). -/
theorem claim_c6_field_error_raises (rv : Values) (m : List Char)
    (hr : (analyseData rv m).raised = true) :
    (analyseData rv m).emitted = none ∧
    (∀ f : Field, f ∉ fieldsOf m → getF f (analyseData rv m).values = getF f rv) ∧
    ∀ (t : ℚ) (rest : List (List Char × ℚ)),
      runMsgsT rv ((m, t) :: rest) = ((analyseData rv m).values, [], true) := by
  obtain ⟨h1, h2⟩ := analyse_raise_facts rv m hr
  exact ⟨h1, h2, fun t rest => by rw [runMsgsT_cons, if_pos hr]⟩

theorem claim_c6_field_error_raises_witness :
    (analyseData ⟨some 1, none, none, none, none, none⟩
        "$WIMWV,abc,,3.2\n".toList).raised = true ∧
    ((analyseData ⟨some 1, none, none, none, none, none⟩
        "$WIMWV,abc,,3.2\n".toList).emitted = none ∧
      (∀ f : Field, f ∉ fieldsOf "$WIMWV,abc,,3.2\n".toList →
        getF f (analyseData ⟨some 1, none, none, none, none, none⟩
          "$WIMWV,abc,,3.2\n".toList).values =
        getF f ⟨some 1, none, none, none, none, none⟩) ∧
      ∀ (t : ℚ) (rest : List (List Char × ℚ)),
        runMsgsT ⟨some 1, none, none, none, none, none⟩
            (("$WIMWV,abc,,3.2\n".toList, t) :: rest) =
          ((analyseData ⟨some 1, none, none, none, none, none⟩
            "$WIMWV,abc,,3.2\n".toList).values, [], true)) :=
  ⟨by decide, claim_c6_field_error_raises _ _ (by decide)⟩

/-- C6 counterexample.  The claim says a recognized sentence with an
unparsable numeric field "does not raise": it does.  Body level: the
`$WIMWV` sentence with field `abc` raises out of `_analyse_message`.
Full read path: a read whose post-extraction remainder is such a fragment
makes `_read_data` raise (caught only by `_poll`'s bare `except`). -/
theorem claim_c6_field_error_counterexample :
    (analyseData emptyValues "$WIMWV,abc,,3.2\n".toList).raised = true ∧
    (readDataActual emptyValues [] "$WIMTA,1\n$WIMWV,abc,,3.2".toList).raised = true :=
  ⟨by decide, by decide⟩

/-- C5.  Chunk-boundary independence of `_extract_messages`: feeding any
chunking of a byte sequence through the decoder, threading the returned
remainder into the next call, returns exactly the messages and remainder
of a single whole-sequence call; the concatenation of the returned
messages followed by the final remainder reconstructs the input; and any
two chunkings of the same bytes yield identical messages and
remainders. -/
theorem claim_c5_chunk_independence :
    (∀ chunks : List (List Char),
      feedChunks [] chunks = extractMessages chunks.flatten ∧
      (extractMessages chunks.flatten).1.flatten ++ (extractMessages chunks.flatten).2 =
        chunks.flatten) ∧
    ∀ cs ds : List (List Char), cs.flatten = ds.flatten →
      feedChunks [] cs = feedChunks [] ds := by
  have key : ∀ chunks : List (List Char),
      feedChunks [] chunks = extractMessages chunks.flatten := by
    intro chunks
    have h := feedChunks_eq_extract chunks [] (by simp)
    simpa using h
  refine ⟨fun chunks => ⟨key chunks, extract_join _⟩, fun cs ds hcd => ?_⟩
  rw [key cs, key ds, hcd]

theorem claim_c5_chunk_independence_witness :
    ([['a', '\n'], ['b']] : List (List Char)).flatten =
      ([['a'], ['\n', 'b']] : List (List Char)).flatten ∧
    feedChunks [] [['a', '\n'], ['b']] = feedChunks [] [['a'], ['\n', 'b']] :=
  ⟨by decide, claim_c5_chunk_independence.2 [['a', '\n'], ['b']] [['a'], ['\n', 'b']]
    (by decide)⟩

theorem claim_c3_completion_policy_witness :
    (runMsgsT emptyValues [("$WIMTA,12.5\n".toList, 1), ("$WIMWV,180,,3.2\n".toList, 2),
        ("$WIMHU,55,,9.1\n".toList, 3), ("$WIMMB,,,1013.2\n".toList, 4)]).2.2 = false ∧
    ((∀ e ∈ (runMsgsT emptyValues [("$WIMTA,12.5\n".toList, 1),
        ("$WIMWV,180,,3.2\n".toList, 2), ("$WIMHU,55,,9.1\n".toList, 3),
        ("$WIMMB,,,1013.2\n".toList, 4)]).2.1, finishedV e.2 = true) ∧
      (coversAll (([("$WIMTA,12.5\n".toList, (1 : ℚ)), ("$WIMWV,180,,3.2\n".toList, 2),
          ("$WIMHU,55,,9.1\n".toList, 3), ("$WIMMB,,,1013.2\n".toList, 4)]).map
            Prod.fst) = true →
        ∃ (k : ℕ) (hk : k < ([("$WIMTA,12.5\n".toList, (1 : ℚ)),
            ("$WIMWV,180,,3.2\n".toList, 2), ("$WIMHU,55,,9.1\n".toList, 3),
            ("$WIMMB,,,1013.2\n".toList, 4)]).length),
          coversAll ((([("$WIMTA,12.5\n".toList, (1 : ℚ)), ("$WIMWV,180,,3.2\n".toList, 2),
            ("$WIMHU,55,,9.1\n".toList, 3), ("$WIMMB,,,1013.2\n".toList, 4)]).map
              Prod.fst).take (k + 1)) = true ∧
          coversAll ((([("$WIMTA,12.5\n".toList, (1 : ℚ)), ("$WIMWV,180,,3.2\n".toList, 2),
            ("$WIMHU,55,,9.1\n".toList, 3), ("$WIMMB,,,1013.2\n".toList, 4)]).map
              Prod.fst).take k) = false ∧
          ∃ e, finishedV e = true ∧
            runMsgsT emptyValues (([("$WIMTA,12.5\n".toList, (1 : ℚ)),
                ("$WIMWV,180,,3.2\n".toList, 2), ("$WIMHU,55,,9.1\n".toList, 3),
                ("$WIMMB,,,1013.2\n".toList, 4)]).take (k + 1)) =
              (emptyValues, [((([("$WIMTA,12.5\n".toList, (1 : ℚ)),
                ("$WIMWV,180,,3.2\n".toList, 2), ("$WIMHU,55,,9.1\n".toList, 3),
                ("$WIMMB,,,1013.2\n".toList, 4)]).get ⟨k, hk⟩).2, e)], false))) :=
  ⟨by decide, claim_c3_completion_policy.2 [("$WIMTA,12.5\n".toList, 1),
    ("$WIMWV,180,,3.2\n".toList, 2), ("$WIMHU,55,,9.1\n".toList, 3),
    ("$WIMMB,,,1013.2\n".toList, 4)] (by decide)⟩

end Lambrecht
